import Mathlib

/-!
Verification development for a content-addressable object store
(git-style plumbing: blob/tree objects, SHA-1 addressing, zlib framing).

Byte strings are modelled as lists of natural numbers below 256.
The definitions are shallow embeddings of the C++ source: the blob and
tree framing code, the SHA-1 content addressing (the OpenSSL SHA1 call is
embedded as a full executable SHA-1 over byte lists), the grow-and-retry
decompression loop, the snapshot walk with its mode classification, and
the two tree-payload parsing loops.
-/

/-- Bytes are natural numbers below 256; byte strings are lists of bytes. -/
abbrev Bytes := List Nat

/-- ASCII bytes of a string literal (used only for ASCII literals). -/
def strBytes (s : String) : Bytes := s.toList.map Char.toNat

/-- ASCII decimal rendering of a natural number, as std::to_string produces. -/
def decDigits (n : Nat) : Bytes :=
  if n < 10 then [48 + n] else decDigits (n / 10) ++ [48 + n % 10]
termination_by n
decreasing_by exact Nat.div_lt_self (by omega) (by omega)

/-! SHA-1, embedded from the use the codebase makes of OpenSSL SHA1: a pure function
from a byte list to its 20-byte digest (FIPS 180-1). -/

/-- Reduction of a natural number to a 32-bit word. -/
def w32 (n : Nat) : Nat := n % 4294967296

/-- Left rotation of a 32-bit word by s bits. -/
def rotl (s n : Nat) : Nat := w32 ((n <<< s) ||| (n >>> (32 - s)))

/-- Big-endian byte rendering of a value into k bytes. -/
def toBE (k v : Nat) : Bytes := (List.range k).map (fun i => (v >>> (8 * (k - 1 - i))) % 256)

/-- Group a byte list into big-endian 32-bit words. -/
def bytesToWords : Bytes → List Nat
  | a :: b :: c :: d :: rest => (((a * 256 + b) * 256 + c) * 256 + d) :: bytesToWords rest
  | _ => []

/-- SHA-1 message padding: append 0x80, zero bytes to 56 mod 64, then the
bit length as 8 big-endian bytes. -/
def sha1pad (msg : Bytes) : Bytes :=
  msg ++ [128] ++ List.replicate ((119 - msg.length % 64) % 64) 0 ++ toBE 8 (8 * msg.length)

/-- Extend the 16 message-schedule words to 80 by the SHA-1 recurrence. -/
def sched (ws : List Nat) : Nat → List Nat
  | 0 => ws
  | n+1 =>
    let v := sched ws n
    let i := v.length
    v ++ [rotl 1 ((v.getD (i-3) 0) ^^^ (v.getD (i-8) 0) ^^^ (v.getD (i-14) 0) ^^^ (v.getD (i-16) 0))]

/-- SHA-1 round logical function, by round index. -/
def sha1f (t b c d : Nat) : Nat :=
  if t < 20 then (b &&& c) ||| ((4294967295 ^^^ b) &&& d)
  else if t < 40 then b ^^^ c ^^^ d
  else if t < 60 then (b &&& c) ||| (b &&& d) ||| (c &&& d)
  else b ^^^ c ^^^ d

/-- SHA-1 round constant, by round index. -/
def sha1k (t : Nat) : Nat :=
  if t < 20 then 1518500249
  else if t < 40 then 1859775393
  else if t < 60 then 2400959708
  else 3395469782

/-- The five 32-bit working registers of SHA-1. -/
structure Sha1State where
  a : Nat
  b : Nat
  c : Nat
  d : Nat
  e : Nat

/-- The 80 SHA-1 rounds over one schedule. -/
def sha1rounds : List Nat → Nat → Sha1State → Sha1State
  | [], _, st => st
  | w :: ws, t, st =>
    sha1rounds ws (t+1)
      ⟨w32 (rotl 5 st.a + sha1f t st.b st.c st.d + st.e + sha1k t + w),
       st.a, rotl 30 st.b, st.c, st.d⟩

/-- Process one 64-byte block, updating the chaining state. -/
def sha1block (h : Sha1State) (block : Bytes) : Sha1State :=
  let st := sha1rounds (sched (bytesToWords block) 64) 0 h
  ⟨w32 (h.a + st.a), w32 (h.b + st.b), w32 (h.c + st.c), w32 (h.d + st.d), w32 (h.e + st.e)⟩

/-- Split a byte list into consecutive 64-byte chunks. -/
def chunks64 (l : Bytes) : List Bytes :=
  if h : l = [] then [] else
    l.take 64 :: chunks64 (l.drop 64)
termination_by l.length
decreasing_by
  have hp : 0 < l.length := List.length_pos.mpr h
  simp [List.length_drop]
  omega

/-- The SHA-1 initial chaining state. -/
def sha1init : Sha1State := ⟨1732584193, 4023233417, 2562383102, 271733878, 3285377520⟩

/-- SHA-1 digest of a byte list, as 20 raw bytes. -/
def sha1 (msg : Bytes) : Bytes :=
  let H := (chunks64 (sha1pad msg)).foldl sha1block sha1init
  toBE 4 H.a ++ toBE 4 H.b ++ toBE 4 H.c ++ toBE 4 H.d ++ toBE 4 H.e

/-- ASCII code of one lowercase hexadecimal digit. -/
def hexChar (n : Nat) : Nat := if n < 10 then 48 + n else 87 + n

/-- Lowercase hex rendering of a byte list, two digits per byte, as the
setw(2)/setfill loop of the sources over the 20 digest bytes produces. -/
def hexOfBytes (bs : Bytes) : Bytes := bs.flatMap (fun b => [hexChar (b / 16), hexChar (b % 16)])

/-! Blob framing and header stripping, from the hash-object and
cat-file paths of the sources. -/

/-- Framed buffer built by the blob write path: the literal concatenation
"blob " + std::to_string(size) + NUL + content from the sources. -/
def frameBlob (content : Bytes) : Bytes :=
  strBytes "blob " ++ decDigits content.length ++ [0] ++ content

/-- Model of std::string::find for one byte: some index of the first
occurrence, none when absent (C++ npos). List.findIdx returns the length
when no element matches, which is folded back into the none case. -/
def findByte (b : Nat) (s : Bytes) : Option Nat :=
  let i := s.findIdx (fun x => x == b)
  if i < s.length then some i else none

/-- Header stripping from the read path: buf.substr(buf.find(NUL) + 1).
When no NUL exists, find yields npos and npos + 1 wraps to 0 in size_t
arithmetic, so the whole buffer is returned. -/
def remove_header (s : Bytes) : Bytes :=
  match findByte 0 s with
  | some i => s.drop (i + 1)
  | none => s

/-! Object store model: the on-disk store as an association list from path
byte strings to file contents, with the path layout of the sources. -/

/-- The on-disk object store: association list from paths to raw file bytes. -/
abbrev FS := List (Bytes × Bytes)

/-- Association-list lookup used for the filesystem model. -/
def assoc {α : Type} (k : Bytes) : List (Bytes × α) → Option α
  | [] => none
  | (k2, v) :: rest => if k2 = k then some v else assoc k rest

/-- Write a file, shadowing any previous content at the same path. -/
def fsWrite (k v : Bytes) (fs : FS) : FS := (k, v) :: fs

/-- Object path resolution from a 40-character hex id, as the sources build
it: ".git/objects/" + hex[0..2] + "/" + hex[2..]. -/
def objectPathOf (hex : Bytes) : Bytes :=
  strBytes ".git/objects/" ++ hex.take 2 ++ [47] ++ hex.drop 2

/-- Errors of the object-store read path. -/
inductive ReadErr where
  | notFound
deriving DecidableEq

/-- ObjectStore.read, from the open-or-fail prologue of decompressFile: resolve
the path from the hex id; when the file is absent return the failure and
leave the store untouched; otherwise return the raw (still compressed)
bytes. The store is threaded through to state that reading never writes. -/
def read_object (fs : FS) (hex : Bytes) : Except ReadErr Bytes × FS :=
  match assoc (objectPathOf hex) fs with
  | none => (Except.error ReadErr.notFound, fs)
  | some data => (Except.ok data, fs)

/-- The hash-object write path: frame the content as a blob, hash the framed
buffer, compress it (comp is the codec collaborator) and store it at the
path derived from the hex digest. -/
def hash_object (comp : Bytes → Bytes) (fs : FS) (content : Bytes) : FS :=
  let full := frameBlob content
  fsWrite (objectPathOf (hexOfBytes (sha1 full))) (comp full) fs

/-- The cat-file read path: look the object up, decompress it (decomp is the
codec collaborator) and strip everything through the first NUL. -/
def cat_file (decomp : Bytes → Bytes) (fs : FS) (hex : Bytes) : Except ReadErr Bytes :=
  match assoc (objectPathOf hex) fs with
  | none => Except.error ReadErr.notFound
  | some data => Except.ok (remove_header (decomp data))

/-! The grow-and-retry decompression loop shared by decompressFile,
decompressTree and decompress_git_object_and_remove_header. -/

/-- Result of one zlib uncompress call. -/
inductive UncompressRes where
  | ok (out : Bytes)
  | bufError
  | zerror (code : Int)
deriving DecidableEq

/-- Modelled from the spec: the external zlib codec contract (spec section
4.3 and 6, a black-box collaborator). A stream either is corrupt (none),
yielding a non-recoverable error code at every buffer size, or decompresses
to a fixed output, yielding the buffer-too-small signal exactly when the
destination buffer is shorter than that output. -/
def uncompressModel (stream : Option Bytes) (bufSize : Nat) : UncompressRes :=
  match stream with
  | none => UncompressRes.zerror (-3)
  | some out => if out.length ≤ bufSize then UncompressRes.ok out else UncompressRes.bufError

/-- The grow-and-retry loop of the sources: try the codec at the current
buffer size; on the buffer-too-small signal double the buffer and retry; on
any other nonzero code fail; otherwise succeed. Fuel bounds the iterations
so the loop is a total function; none means the fuel ran out. -/
def decompressLoop (codec : Nat → UncompressRes) : Nat → Nat → Option (Except Int Bytes)
  | 0, _ => none
  | fuel+1, size =>
    match codec size with
    | UncompressRes.bufError => decompressLoop codec fuel (size * 2)
    | UncompressRes.zerror c => some (Except.error c)
    | UncompressRes.ok out => some (Except.ok out)

/-- Loop entry of decompressFile: the initial buffer is sized to the
compressed input length (buf.resize(blob_data.size())). -/
def decompressFileModel (stream : Option Bytes) (inputLen fuel : Nat) : Option (Except Int Bytes) :=
  decompressLoop (uncompressModel stream) fuel inputLen

/-! The ls-tree payload parsing loop of main in the unnamed translation unit:
repeatedly strip mode (through the first space), name (through the first
NUL) and 20 hash bytes, while the remaining string is nonempty. -/

/-- Model of substr(0, pos): everything before the found index, or the whole
string when the byte was absent (npos). -/
def takeTo (i : Option Nat) (s : Bytes) : Bytes :=
  match i with
  | some j => s.take j
  | none => s

/-- Model of erase(0, pos + 1): drop through the found index; when the byte
was absent, npos + 1 wraps to 0 and nothing is erased. -/
def eraseTo (i : Option Nat) (s : Bytes) : Bytes :=
  match i with
  | some j => s.drop (j + 1)
  | none => s

/-- One iteration of the ls-tree loop: drop the mode and the space, extract
the name up to the NUL, drop it and the NUL, then drop the 20 hash bytes
(erase(0, 20) clamps at the end of the string). Returns the extracted name
and the remaining data. -/
def parseStepA (s : Bytes) : Bytes × Bytes :=
  let s1 := eraseTo (findByte 32 s) s
  let nl := findByte 0 s1
  (takeTo nl s1, (eraseTo nl s1).drop 20)

/-- Each ls-tree iteration consumes at least one byte of a nonempty rest. -/
theorem parseStepA_snd_lt (s : Bytes) (h : s ≠ []) :
    (parseStepA s).2.length < s.length := by
  have hl : 0 < s.length := List.length_pos.mpr h
  have key : ∀ sp nl : Option Nat,
      ((eraseTo nl (eraseTo sp s)).drop 20).length < s.length := by
    intro sp nl
    rcases sp with _ | j <;> rcases nl with _ | j2 <;>
      simp only [eraseTo, List.length_drop] <;> omega
  exact key (findByte 32 s) (findByte 0 (eraseTo (findByte 32 s) s))

/-- The entry-name list the ls-tree loop of the unnamed main extracts, in
payload order (the loop runs while the remaining string is nonempty). -/
def lsTreeNamesA (s : Bytes) : List Bytes :=
  if h : s = [] then [] else
    (parseStepA s).1 :: lsTreeNamesA (parseStepA s).2
termination_by s.length
decreasing_by exact parseStepA_snd_lt s h

/-- What ls-tree prints: the parsed names after std::sort (ascending
lexicographic byte order; modelled by insertion sort, which produces the
unique sorted arrangement of the names). -/
def lsTreeOutputA (s : Bytes) : List Bytes :=
  List.insertionSort (· ≤ ·) (lsTreeNamesA s)

/-! The tree parsing loop of decompressTree in Server.cpp: a do-while that
slices one line per record and runs while more than one byte remains. -/

/-- Name extraction from one line of decompressTree: substr(0, 5) compared
with "40000" selects substr(6), any other mode selects substr(7); substr
throws std::out_of_range when the start position exceeds the line length,
modelled as none. -/
def nameOfLineB (line : Bytes) : Option Bytes :=
  if line.take 5 = strBytes "40000" then
    (if 6 ≤ line.length then some (line.drop 6) else none)
  else
    (if 7 ≤ line.length then some (line.drop 7) else none)

/-- Advance of decompressTree past one record:
trimmed.substr(trimmed.find(NUL) + 21). When no NUL exists, npos + 21
wraps to 20 in size_t arithmetic; substr throws (none) when the start
position exceeds the string length. -/
def restB (s : Bytes) : Option Bytes :=
  match findByte 0 s with
  | some q => if q + 21 ≤ s.length then some (s.drop (q + 21)) else none
  | none => if 20 ≤ s.length then some (s.drop 20) else none

/-- Each decompressTree advance consumes at least one byte. -/
theorem restB_length_lt (s r : Bytes) (h : restB s = some r) : r.length < s.length := by
  rcases hf : findByte 0 s with _ | q <;> simp only [restB, hf] at h
  · rcases Nat.lt_or_ge s.length 20 with hc | hc
    · rw [if_neg (by omega)] at h
      exact absurd h (by simp)
    · rw [if_pos (by omega)] at h
      cases h
      simp only [List.length_drop]
      omega
  · rcases Nat.lt_or_ge s.length (q + 21) with hc | hc
    · rw [if_neg (by omega)] at h
      exact absurd h (by simp)
    · rw [if_pos (by omega)] at h
      cases h
      simp only [List.length_drop]
      omega

/-- The name list decompressTree extracts: a do-while loop, so the body runs
at least once even on an empty payload; the loop continues while more than
one byte remains; none models a thrown std::out_of_range. -/
def parseB (s : Bytes) : Option (List Bytes) :=
  match nameOfLineB (takeTo (findByte 0 s) s), hr : restB s with
  | some n, some r =>
    if 1 < r.length then (parseB r).map (fun l => n :: l) else some [n]
  | _, _ => none
termination_by s.length
decreasing_by exact restB_length_lt s r hr

/-! Snapshotter model: the recursive directory walk of create_tree_format.
The filesystem is an inductive tree; what a symlink resolves to is recorded
on the link so the std::filesystem status-following predicates can be
evaluated. -/

/-- What a symbolic link resolves to: a regular file (with its permission
bit and content, both reachable through the link), a directory, or nothing
(a broken link). -/
inductive Resolved where
  | toRegular (executable : Bool) (content : Bytes)
  | toDirectory
  | broken

/-- A filesystem node: a regular file, a symbolic link, or a directory with
named children. Directory iteration yields each name once; theorems that
need that carry a Nodup hypothesis. -/
inductive FSNode where
  | file (executable : Bool) (content : Bytes)
  | symlink (target : Bytes) (res : Resolved)
  | dir (children : List (Bytes × FSNode))

/-- Mode text for regular files: 100755 when the owner-execute permission
bit is set, 100644 otherwise. -/
def fileModeOf (executable : Bool) : Bytes :=
  if executable then strBytes "100755" else strBytes "100644"

/-- One tree record as the create_tree_format loop emits it: mode text, one
space, the raw name bytes, one NUL, then the 20 raw hash bytes. -/
def entryRecord (k : Bytes) (mh : Bytes × Bytes) : Bytes :=
  mh.1 ++ [32] ++ k ++ [0] ++ mh.2

/-- Step 3 of create_tree_format: the collected keys sorted by std::sort on
std::string (ascending byte-wise lexicographic order; insertion sort
produces the same, unique, sorted arrangement). -/
def sortedKeysOf (entries : List (Bytes × (Bytes × Bytes))) : List Bytes :=
  List.insertionSort (· ≤ ·) (entries.map Prod.fst)

/-- Step 4 of create_tree_format: one record per sorted key, in sorted
order, looked up in the entry map and concatenated with no delimiter. -/
def treeEntriesString (entries : List (Bytes × (Bytes × Bytes))) : Bytes :=
  (sortedKeysOf entries).flatMap (fun k =>
    match assoc k entries with
    | some mh => entryRecord k mh
    | none => [])

mutual

/-- Mode text and 20-byte object hash create_tree_format records for one
child, following the branch order of the source. entry.is_regular_file() and
entry.status() resolve symlinks, so a symlink whose target is a regular
file takes the regular-file branch: its mode comes from the permissions of
the target and its blob is the content of the target, both read through the
link. Only afterwards is entry.is_symlink() tested (so links to
directories and broken links are stored as target-path blobs with mode
120000, and directories are never entered through a link), and last
entry.is_directory() recurses and hashes the framed subtree format. -/
def entryModeHash : FSNode → Bytes × Bytes
  | FSNode.file ex c => (fileModeOf ex, sha1 (frameBlob c))
  | FSNode.symlink _ (Resolved.toRegular ex c) => (fileModeOf ex, sha1 (frameBlob c))
  | FSNode.symlink t Resolved.toDirectory => (strBytes "120000", sha1 (frameBlob t))
  | FSNode.symlink t Resolved.broken => (strBytes "120000", sha1 (frameBlob t))
  | FSNode.dir children => (strBytes "40000", sha1 (treeFormatOf children))
termination_by n => (sizeOf n, 0)

/-- The entry map create_tree_format collects over the children of one
directory: the name of each child mapped to its mode and hash, skipping the
".git" metadata directory of the store itself. -/
def entriesOf : List (Bytes × FSNode) → List (Bytes × (Bytes × Bytes))
  | [] => []
  | (n, node) :: rest =>
    if n = strBytes ".git" then entriesOf rest
    else (n, entryModeHash node) :: entriesOf rest
termination_by l => (sizeOf l, 0)

/-- create_tree_format for the children of one directory: collect the entry
map, sort the names (std::sort on std::string, ascending byte-wise
lexicographic order, modelled by insertion sort), emit one record per name
in sorted order, and prepend the "tree " + size + NUL framing. -/
def treeFormatOf (children : List (Bytes × FSNode)) : Bytes :=
  let es := treeEntriesString (entriesOf children)
  strBytes "tree " ++ decDigits es.length ++ [0] ++ es
termination_by (sizeOf children, 1)

end

/-- create_tree_hash in hex form: SHA-1 of the full framed tree format,
rendered as 40 lowercase hex characters. -/
def create_tree_hash_hex (tree_format : Bytes) : Bytes :=
  hexOfBytes (sha1 tree_format)

/-- The four canonical mode texts of the tree format; the directory mode is
written without a leading zero. -/
def modeTexts : List Bytes :=
  [strBytes "100644", strBytes "100755", strBytes "120000", strBytes "40000"]

unseal decDigits chunks64 lsTreeNamesA parseB entryModeHash entriesOf treeFormatOf

set_option maxRecDepth 10000

/-! Supporting lemmas. -/

/-- A SHA-1 digest always has exactly 20 bytes. -/
theorem sha1_length (m : Bytes) : (sha1 m).length = 20 := by
  simp [sha1, toBE]

/-- Every byte of a decimal rendering is an ASCII digit. -/
theorem decDigits_bounds (n : Nat) : ∀ d ∈ decDigits n, 48 ≤ d ∧ d ≤ 57 := by
  induction n using Nat.strong_induction_on with
  | _ n ih =>
    rw [decDigits]
    split
    · intro d hd
      simp only [List.mem_singleton] at hd
      omega
    · intro d hd
      rcases List.mem_append.mp hd with h1 | h2
      · exact ih (n / 10) (Nat.div_lt_self (by omega) (by omega)) d h1
      · simp only [List.mem_singleton] at h2
        omega

/-- findIdx skips an all-false prefix. -/
theorem findIdx_append_false {p : Nat → Bool} (xs ys : Bytes)
    (h : ∀ x ∈ xs, p x = false) :
    (xs ++ ys).findIdx p = xs.length + ys.findIdx p := by
  induction xs with
  | nil => simp
  | cons a l ih =>
    have ha : p a = false := h a (List.mem_cons_self a l)
    simp only [List.cons_append, List.findIdx_cons, ha, cond_false,
      ih (fun x hx => h x (List.mem_cons_of_mem a hx)), List.length_cons]
    omega

/-- The first occurrence of a byte after a prefix that avoids it. -/
theorem findByte_at (xs ys : Bytes) (b : Nat) (h : ∀ x ∈ xs, x ≠ b) :
    findByte b (xs ++ b :: ys) = some xs.length := by
  have hfalse : ∀ x ∈ xs, (x == b) = false := fun x hx => by
    simpa using h x hx
  have hidx : (xs ++ b :: ys).findIdx (fun x => x == b) = xs.length := by
    rw [findIdx_append_false xs _ hfalse]
    simp [List.findIdx_cons]
  have hlen : xs.length < (xs ++ b :: ys).length := by
    simp [List.length_append]
  simp [findByte, hidx, hlen]

/-- Dropping a prefix and one more element. -/
theorem drop_left_cons (l1 l2 : Bytes) (x : Nat) :
    (l1 ++ x :: l2).drop (l1.length + 1) = l2 := by
  have h1 : l1 ++ x :: l2 = (l1 ++ [x]) ++ l2 := by simp
  have h2 : l1.length + 1 = (l1 ++ [x]).length := by simp
  rw [h1, h2, List.drop_left]

/-- Stripping through the first NUL of a framed buffer recovers the
payload, because the tag and the decimal size contain no NUL byte. -/
theorem remove_header_framed (tag payload : Bytes) (htag : ∀ x ∈ tag, x ≠ 0) :
    remove_header (tag ++ decDigits payload.length ++ [0] ++ payload) = payload := by
  have hhd : ∀ x ∈ tag ++ decDigits payload.length, x ≠ 0 := by
    intro x hx
    rcases List.mem_append.mp hx with h1 | h2
    · exact htag x h1
    · have := (decDigits_bounds payload.length x h2).1
      omega
  have hshape : tag ++ decDigits payload.length ++ [0] ++ payload
      = (tag ++ decDigits payload.length) ++ 0 :: payload := by simp
  rw [hshape, remove_header, findByte_at _ _ 0 hhd]
  exact drop_left_cons _ _ _

/-- Stripping the blob header from a framed blob recovers the content. -/
theorem remove_header_frameBlob (content : Bytes) :
    remove_header (frameBlob content) = content := by
  have : frameBlob content
      = strBytes "blob " ++ decDigits content.length ++ [0] ++ content := rfl
  rw [this, remove_header_framed]
  decide

/-- The snapshot classification only ever emits the four canonical mode
texts. -/
theorem entryModeHash_mode_mem (node : FSNode) : (entryModeHash node).1 ∈ modeTexts := by
  cases node with
  | file ex c => cases ex <;> simp [entryModeHash, fileModeOf, modeTexts]
  | symlink t res =>
    cases res with
    | toRegular ex c => cases ex <;> simp [entryModeHash, fileModeOf, modeTexts]
    | toDirectory => simp [entryModeHash, modeTexts]
    | broken => simp [entryModeHash, modeTexts]
  | dir children => simp [entryModeHash, modeTexts]

/-- The snapshot classification always emits a 20-byte hash. -/
theorem entryModeHash_hash_length (node : FSNode) : (entryModeHash node).2.length = 20 := by
  cases node with
  | file ex c => simp [entryModeHash, sha1_length]
  | symlink t res => cases res <;> simp [entryModeHash, sha1_length]
  | dir children => simp [entryModeHash, sha1_length]

/-- No canonical mode text contains a space or a NUL byte. -/
theorem modeTexts_bytes : ∀ m ∈ modeTexts, 32 ∉ m ∧ 0 ∉ m := by decide

/-- Every pair collected by entriesOf carries the mode and hash of some
child node, so its mode is canonical and its hash has 20 bytes. -/
theorem entriesOf_facts (l : List (Bytes × FSNode)) :
    ∀ p ∈ entriesOf l, p.2.1 ∈ modeTexts ∧ p.2.2.length = 20 := by
  induction l with
  | nil => simp [entriesOf]
  | cons hd tl ih =>
    rcases hd with ⟨n, node⟩
    intro p hp
    rw [entriesOf] at hp
    split at hp
    · exact ih p hp
    · rcases List.mem_cons.mp hp with rfl | hmem
      · exact ⟨entryModeHash_mode_mem node, entryModeHash_hash_length node⟩
      · exact ih p hmem

/-- A successful association-list lookup returns a stored pair. -/
theorem assoc_some_mem {α : Type} (k : Bytes) (l : List (Bytes × α)) (v : α)
    (h : assoc k l = some v) : (k, v) ∈ l := by
  induction l with
  | nil => simp [assoc] at h
  | cons hd tl ih =>
    rcases hd with ⟨k2, v2⟩
    rw [assoc] at h
    by_cases hk : k2 = k
    · rw [if_pos hk] at h
      cases h
      subst hk
      exact List.mem_cons_self _ _
    · rw [if_neg hk] at h
      exact List.mem_cons_of_mem _ (ih h)

/-- Lookup succeeds for every stored key. -/
theorem assoc_of_mem_keys {α : Type} (k : Bytes) (l : List (Bytes × α))
    (h : k ∈ l.map Prod.fst) : ∃ v, assoc k l = some v := by
  induction l with
  | nil => simp at h
  | cons hd tl ih =>
    rcases hd with ⟨k2, v2⟩
    rw [assoc]
    by_cases hk : k2 = k
    · exact ⟨v2, if_pos hk⟩
    · rw [if_neg hk]
      rcases List.mem_map.mp h with ⟨p, hp, hpk⟩
      rcases List.mem_cons.mp hp with rfl | hmem
      · exact absurd hpk hk
      · exact ih (List.mem_map.mpr ⟨p, hmem, hpk⟩)

/-- Equation of the ls-tree loop at the empty string. -/
theorem lsTreeNamesA_nil : lsTreeNamesA [] = [] := by
  rw [lsTreeNamesA]
  simp

/-- Equation of the ls-tree loop at a nonempty string. -/
theorem lsTreeNamesA_cons (s : Bytes) (h : s ≠ []) :
    lsTreeNamesA s = (parseStepA s).1 :: lsTreeNamesA (parseStepA s).2 := by
  conv_lhs => rw [lsTreeNamesA]
  simp [h]

/-- The ls-tree loop peels exactly one well-formed record off the front:
the mode has no space and no NUL, the name has no NUL, and the hash has
exactly 20 bytes, so the three cursor moves land on the record boundary. -/
theorem lsTreeNamesA_record (m k h rest : Bytes)
    (hm32 : 32 ∉ m) (hm0 : 0 ∉ m) (hk0 : 0 ∉ k) (hh : h.length = 20) :
    lsTreeNamesA (m ++ [32] ++ k ++ [0] ++ h ++ rest) = k :: lsTreeNamesA rest := by
  have hs : m ++ [32] ++ k ++ [0] ++ h ++ rest
      = m ++ 32 :: (k ++ 0 :: (h ++ rest)) := by simp
  rw [hs]
  have hne : m ++ 32 :: (k ++ 0 :: (h ++ rest)) ≠ [] := by simp
  have hf32 : findByte 32 (m ++ 32 :: (k ++ 0 :: (h ++ rest))) = some m.length :=
    findByte_at m _ 32 (fun x hx hxb => hm32 (hxb ▸ hx))
  have hdrop1 : (m ++ 32 :: (k ++ 0 :: (h ++ rest))).drop (m.length + 1)
      = k ++ 0 :: (h ++ rest) := drop_left_cons m _ 32
  have hf0 : findByte 0 (k ++ 0 :: (h ++ rest)) = some k.length :=
    findByte_at k _ 0 (fun x hx hxb => hk0 (hxb ▸ hx))
  have hstep : parseStepA (m ++ 32 :: (k ++ 0 :: (h ++ rest))) = (k, rest) := by
    have htake : (k ++ 0 :: (h ++ rest)).take k.length = k := by
      have : k ++ 0 :: (h ++ rest) = k ++ (0 :: (h ++ rest)) := rfl
      rw [this]
      exact List.take_left k _
    have hdrop2 : (k ++ 0 :: (h ++ rest)).drop (k.length + 1) = h ++ rest :=
      drop_left_cons k _ 0
    have hdrop20 : (h ++ rest).drop 20 = rest := by
      rw [← hh]
      exact List.drop_left h rest
    simp only [parseStepA, hf32, eraseTo, hdrop1, hf0, takeTo, htake, hdrop2, hdrop20]
  rw [lsTreeNamesA_cons _ hne, hstep]

/-- Parsing the concatenated records of a key list reproduces the keys in
order, provided every key resolves in the entry map to a record whose mode
avoids space and NUL, whose name avoids NUL, and whose hash has 20 bytes. -/
theorem lsTreeNamesA_keys (entries : List (Bytes × (Bytes × Bytes)))
    (hmode : ∀ p ∈ entries, 32 ∉ p.2.1 ∧ 0 ∉ p.2.1)
    (hname : ∀ p ∈ entries, (0 : Nat) ∉ p.1)
    (hlen : ∀ p ∈ entries, p.2.2.length = 20) :
    ∀ keys : List Bytes, (∀ k ∈ keys, k ∈ entries.map Prod.fst) →
      lsTreeNamesA (keys.flatMap (fun k =>
        match assoc k entries with
        | some mh => entryRecord k mh
        | none => [])) = keys := by
  intro keys
  induction keys with
  | nil =>
    intro _
    simpa using lsTreeNamesA_nil
  | cons k ks ih =>
    intro hmem
    rcases assoc_of_mem_keys k entries (hmem k (List.mem_cons_self k ks)) with ⟨mh, hassoc⟩
    have hpmem : (k, mh) ∈ entries := assoc_some_mem k entries mh hassoc
    have hflat : ((k :: ks).flatMap (fun k =>
        match assoc k entries with
        | some mh => entryRecord k mh
        | none => []))
        = entryRecord k mh ++ (ks.flatMap (fun k =>
            match assoc k entries with
            | some mh => entryRecord k mh
            | none => [])) := by
      simp [hassoc]
    rw [hflat]
    have hrec : entryRecord k mh ++ (ks.flatMap (fun k =>
        match assoc k entries with
        | some mh => entryRecord k mh
        | none => []))
        = mh.1 ++ [32] ++ k ++ [0] ++ mh.2 ++ (ks.flatMap (fun k =>
            match assoc k entries with
            | some mh => entryRecord k mh
            | none => [])) := by
      simp [entryRecord]
    rw [hrec, lsTreeNamesA_record mh.1 k mh.2 _
      (hmode _ hpmem).1 (hmode _ hpmem).2 (hname _ hpmem) (hlen _ hpmem)]
    rw [ih (fun k2 hk2 => hmem k2 (List.mem_cons_of_mem k hk2))]

/-- The names entriesOf keeps form a sublist of the child names. -/
theorem entriesOf_keys_sublist (l : List (Bytes × FSNode)) :
    ((entriesOf l).map Prod.fst).Sublist (l.map Prod.fst) := by
  induction l with
  | nil => simp [entriesOf]
  | cons hd tl ih =>
    rcases hd with ⟨n, node⟩
    rw [entriesOf]
    split
    · simp only [List.map_cons]
      exact ih.cons n
    · simp only [List.map_cons]
      exact ih.cons₂ n

/-- Once the doubled buffer reaches the decompressed size, the retry loop
returns the decompressed output. -/
theorem decompressLoop_ok (out : Bytes) :
    ∀ (k size : Nat), out.length ≤ size * 2 ^ k →
    decompressLoop (uncompressModel (some out)) (k + 1) size
      = some (Except.ok out) := by
  intro k
  induction k with
  | zero =>
    intro size h
    rw [pow_zero, mul_one] at h
    simp [decompressLoop, uncompressModel, h]
  | succ k ih =>
    intro size h
    by_cases hle : out.length ≤ size
    · simp [decompressLoop, uncompressModel, hle]
    · have hstep : decompressLoop (uncompressModel (some out)) (k + 1 + 1) size
          = decompressLoop (uncompressModel (some out)) (k + 1) (size * 2) := by
        simp [decompressLoop, uncompressModel, hle]
      rw [hstep]
      apply ih
      calc out.length ≤ size * 2 ^ (k + 1) := h
      _ = size * 2 * 2 ^ k := by ring

/-! Claim theorems. -/

/-- C1: neither reference tree decoder enforces exact length accounting or
raises a CorruptTree error. On a payload holding one well-formed entry
(mode 100644, name a, 20 hash bytes) followed by a single stray byte 88,
the do-while guard of decompressTree (loop while more than one byte remains)
returns just the one name and silently discards the stray byte, while the
loop of the unnamed main runs again and fabricates a second entry named 88;
and on an empty payload the do-while body of decompressTree runs once, throwing
std::out_of_range (modelled as none) instead of reporting CorruptTree. -/
theorem C1_no_corrupt_tree_error :
    parseB (strBytes "100644 a" ++ [0] ++ List.replicate 20 170 ++ [88]) = some [[97]] ∧
    lsTreeNamesA (strBytes "100644 a" ++ [0] ++ List.replicate 20 170 ++ [88])
      = [[97], [88]] ∧
    parseB [] = none :=
  ⟨by decide, by decide, by decide⟩

/-- C2 counterexample: the framed buffer of an empty directory snapshot is
the 7-byte sequence tree 0 NUL, so its length is not 8 as claimed. -/
theorem C2_counterexample : ¬ (treeFormatOf []).length = 8 := by decide

/-- C2 (amended): an empty directory snapshot yields a zero-length tree
payload, so the framed buffer that is hashed and stored is exactly the
7-byte sequence tree 0 NUL, and the resulting ObjectId is the constant
digest 4b825dc642cb6eb9a060e54bf8d69288fbee4904 of that buffer. -/
theorem C2_empty_tree :
    treeEntriesString (entriesOf []) = [] ∧
    treeFormatOf [] = strBytes "tree 0" ++ [0] ∧
    (treeFormatOf []).length = 7 ∧
    create_tree_hash_hex (treeFormatOf [])
      = strBytes "4b825dc642cb6eb9a060e54bf8d69288fbee4904" :=
  ⟨by decide, by decide, by decide, by decide⟩

/-- C3: the framed buffer built by hash-object is the ASCII tag blob, one
space (byte 32), the decimal rendering of the payload length (counting
only the payload), one NUL, then the raw payload; this framed buffer —
not the bare content — is what is hashed and compressed and stored; and
the 12-byte content hello world LF is framed as blob 12 NUL hello world
LF. -/
theorem C3_blob_frame :
    (∀ content : Bytes, frameBlob content
      = strBytes "blob" ++ [32] ++ decDigits content.length ++ [0] ++ content) ∧
    (∀ (comp : Bytes → Bytes) (fs : FS) (content : Bytes),
      hash_object comp fs content
        = fsWrite (objectPathOf (hexOfBytes (sha1 (frameBlob content))))
            (comp (frameBlob content)) fs) ∧
    frameBlob (strBytes "hello world\n")
      = strBytes "blob 12" ++ [0] ++ strBytes "hello world\n" := by
  have hb : strBytes "blob " = strBytes "blob" ++ [32] := by decide
  refine ⟨fun content => ?_, fun comp fs content => rfl, by decide⟩
  rw [frameBlob, hb]

/-- C4: blob round-trip. Writing any content as a blob (frame, compress,
store at the path of its hex digest) and reading that object back
(lookup, decompress, strip through the first NUL) returns exactly the
original content, for any codec satisfying the decompress-of-compress
identity contract. -/
theorem C4_blob_roundtrip (comp decomp : Bytes → Bytes)
    (hcodec : ∀ b, decomp (comp b) = b) (fs : FS) (content : Bytes) :
    cat_file decomp (hash_object comp fs content)
      (hexOfBytes (sha1 (frameBlob content))) = Except.ok content := by
  simp [cat_file, hash_object, fsWrite, assoc, hcodec, remove_header_frameBlob]

/-- Witness for C4 at the identity codec and the content hello world LF. -/
theorem C4_blob_roundtrip_witness :
    cat_file id (hash_object id [] (strBytes "hello world\n"))
      (hexOfBytes (sha1 (frameBlob (strBytes "hello world\n"))))
      = Except.ok (strBytes "hello world\n") :=
  C4_blob_roundtrip id id (fun _ => rfl) [] (strBytes "hello world\n")

/-- C5: mode mapping at snapshot time diverges from the claim for a
symlink whose target is a regular file: entry.is_regular_file() follows
links, so such a child is classified as a regular file — its mode comes
from the permission bits of the target (100644 or 100755, never 120000) and
its blob is the framed target content rather than the target path text of
the link. Symlinks to directories and broken symlinks do reach the symlink
branch and are stored as mode 120000 with the link text as payload. -/
theorem C5_symlink_to_file_followed :
    (∀ (t c : Bytes) (ex : Bool),
      entryModeHash (FSNode.symlink t (Resolved.toRegular ex c))
        = (fileModeOf ex, sha1 (frameBlob c))) ∧
    (∀ t : Bytes,
      entryModeHash (FSNode.symlink t Resolved.toDirectory)
        = (strBytes "120000", sha1 (frameBlob t))) ∧
    (∀ ex : Bool, fileModeOf ex ≠ strBytes "120000") := by
  refine ⟨fun t c ex => ?_, fun t => ?_, fun ex => ?_⟩
  · simp [entryModeHash]
  · simp [entryModeHash]
  · cases ex <;> decide

/-- C6: the tree encoder emits, per entry and in sorted-key order, the
canonical mode text, one space (byte 32), the raw name bytes, one NUL
(byte 0), then the raw 20-byte hash, concatenated with no delimiter
between records, and the result plus its tree framing is the stored tree
object; every mode the snapshot stores is one of the four canonical texts
100644, 100755, 120000 and 40000 (directory mode without a leading zero),
and every stored hash has exactly 20 bytes. -/
theorem C6_tree_encoder (children : List (Bytes × FSNode)) :
    treeFormatOf children
      = strBytes "tree "
        ++ decDigits (treeEntriesString (entriesOf children)).length
        ++ [0] ++ treeEntriesString (entriesOf children) ∧
    treeEntriesString (entriesOf children)
      = (sortedKeysOf (entriesOf children)).flatMap (fun k =>
          match assoc k (entriesOf children) with
          | some mh => mh.1 ++ [32] ++ k ++ [0] ++ mh.2
          | none => []) ∧
    (∀ p ∈ entriesOf children, p.2.1 ∈ modeTexts ∧ p.2.2.length = 20) := by
  refine ⟨?_, rfl, entriesOf_facts children⟩
  rw [treeFormatOf]

/-- C7: the grow-and-retry decompression loop terminates for every input:
it starts with a buffer sized to the compressed input length and doubles
it on each buffer-too-small signal, ending in success on a valid stream
and in a distinguishable non-recoverable codec error on a corrupt one;
the buffer-too-small signal itself can never surface as an error (the
loop result type has no such case). The codec hypothesis is the zlib
fact that a nonempty decompressed output comes from a nonempty
compressed input. -/
theorem C7_decompress_loop_terminates (stream : Option Bytes) (inputLen : Nat)
    (h : ∀ out, stream = some out → out ≠ [] → 0 < inputLen) :
    ∃ fuel, decompressFileModel stream inputLen fuel =
      some (match stream with
            | none => Except.error (-3)
            | some out => Except.ok out) := by
  cases stream with
  | none => exact ⟨1, by simp [decompressFileModel, decompressLoop, uncompressModel]⟩
  | some out =>
    rcases eq_or_ne out [] with rfl | hne
    · exact ⟨1, by simp [decompressFileModel, decompressLoop, uncompressModel]⟩
    · have hpos : 0 < inputLen := h out rfl hne
      refine ⟨out.length + 1, ?_⟩
      have hb : out.length ≤ inputLen * 2 ^ out.length := by
        have h1 : out.length < 2 ^ out.length := Nat.lt_two_pow out.length
        have h2 : 1 * 2 ^ out.length ≤ inputLen * 2 ^ out.length :=
          Nat.mul_le_mul_right (2 ^ out.length) hpos
        omega
      simpa [decompressFileModel] using decompressLoop_ok out out.length inputLen hb

/-- Witness for C7 at a three-byte output stream and input length one: the
loop doubles 1 to 2 to 4 and then succeeds. -/
theorem C7_decompress_loop_terminates_witness :
    ∃ fuel, decompressFileModel (some [1, 2, 3]) 1 fuel = some (Except.ok [1, 2, 3]) :=
  C7_decompress_loop_terminates (some [1, 2, 3]) 1 (fun _ _ _ => Nat.one_pos)

/-- C8: the tree produced by the snapshot walk lists its entries in
strictly ascending byte-wise name order — in particular the names are
unique — and reading the stored object back (header strip followed by the
ls-tree record loop) reproduces exactly that name sequence in the same
order. Hypotheses: directory enumeration yields each child name once, and
filesystem names contain no NUL byte. -/
theorem C8_snapshot_sorted (children : List (Bytes × FSNode))
    (hnodup : (children.map Prod.fst).Nodup)
    (hnul : ∀ p ∈ children, (0 : Nat) ∉ p.1) :
    List.Pairwise (· < ·) (sortedKeysOf (entriesOf children)) ∧
    lsTreeNamesA (remove_header (treeFormatOf children))
      = sortedKeysOf (entriesOf children) := by
  have hnodup2 : ((entriesOf children).map Prod.fst).Nodup :=
    hnodup.sublist (entriesOf_keys_sublist children)
  have hnul2 : ∀ p ∈ entriesOf children, (0 : Nat) ∉ p.1 := by
    intro p hp
    have hk : p.1 ∈ children.map Prod.fst :=
      (entriesOf_keys_sublist children).subset
        (List.mem_map.mpr ⟨p, hp, rfl⟩)
    rcases List.mem_map.mp hk with ⟨q, hq, hqk⟩
    exact hqk ▸ hnul q hq
  constructor
  · have hperm : (sortedKeysOf (entriesOf children)).Perm
        ((entriesOf children).map Prod.fst) := List.perm_insertionSort _ _
    have hnd : (sortedKeysOf (entriesOf children)).Nodup := hperm.nodup_iff.mpr hnodup2
    exact List.Sorted.lt_of_le (List.sorted_insertionSort _ _) hnd
  · have hstrip : remove_header (treeFormatOf children)
        = treeEntriesString (entriesOf children) := by
      rw [treeFormatOf]
      exact remove_header_framed (strBytes "tree ") _ (by decide)
    rw [hstrip]
    have hfacts := entriesOf_facts children
    have hmode : ∀ p ∈ entriesOf children, 32 ∉ p.2.1 ∧ 0 ∉ p.2.1 :=
      fun p hp => modeTexts_bytes p.2.1 (hfacts p hp).1
    have hlen : ∀ p ∈ entriesOf children, p.2.2.length = 20 :=
      fun p hp => (hfacts p hp).2
    have hmem : ∀ k ∈ sortedKeysOf (entriesOf children),
        k ∈ (entriesOf children).map Prod.fst :=
      fun k hk => (List.perm_insertionSort _ _).subset hk
    exact lsTreeNamesA_keys (entriesOf children) hmode hnul2 hlen
      (sortedKeysOf (entriesOf children)) hmem

/-- A two-file directory, listed out of name order, for concrete checks. -/
def demoChildren : List (Bytes × FSNode) :=
  [(strBytes "b.txt", FSNode.file false [1]), (strBytes "a.txt", FSNode.file true [2])]

/-- Witness for C8 at a concrete two-file directory listed out of order. -/
theorem C8_snapshot_sorted_witness :
    List.Pairwise (· < ·) (sortedKeysOf (entriesOf demoChildren)) ∧
    lsTreeNamesA (remove_header (treeFormatOf demoChildren))
      = sortedKeysOf (entriesOf demoChildren) :=
  C8_snapshot_sorted demoChildren (by decide) (by decide)

/-- C9: reading an object whose id has no file in the store fails with
NotFound and performs no write: the returned store is exactly the input
store. -/
theorem C9_read_missing (fs : FS) (hex : Bytes)
    (h : assoc (objectPathOf hex) fs = none) :
    read_object fs hex = (Except.error ReadErr.notFound, fs) := by
  simp [read_object, h]

/-- Witness for C9 at the empty store and an arbitrary 40-hex id. -/
theorem C9_read_missing_witness :
    read_object [] (strBytes "aaaaaaaaaaaaaaaaaaaaaaaaaaaaaaaaaaaaaaaa")
      = (Except.error ReadErr.notFound, []) :=
  C9_read_missing [] (strBytes "aaaaaaaaaaaaaaaaaaaaaaaaaaaaaaaaaaaaaaaa") rfl

/-- A tree payload whose two records are stored out of name order: b
before a. -/
def unsortedTreePayload : Bytes :=
  strBytes "100644 b" ++ [0] ++ List.replicate 20 170
    ++ strBytes "100644 a" ++ [0] ++ List.replicate 20 170

/-- C10: ls-tree sorts the decoded names after parsing and before
printing: for every payload the printed name list is sorted ascending,
and on a stored tree whose records appear as b then a the parse yields b
then a while the printed output is a then b — the output order reflects
the sort, not the on-disk record order. -/
theorem C10_lstree_sorts_names :
    (∀ payload : Bytes, List.Sorted (· ≤ ·) (lsTreeOutputA payload)) ∧
    lsTreeNamesA unsortedTreePayload = [[98], [97]] ∧
    lsTreeOutputA unsortedTreePayload = [[97], [98]] := by
  refine ⟨fun payload => List.sorted_insertionSort _ _, by decide, by decide⟩
